import Mathlib

/-!
# Verification of the Automative-SpaCy entity/parameter pipeline

Shallow embedding of the query-classification and parameter-binding core of
the repository (src/pipeline/processors/llm_processor.py,
src/pipeline/exctractors/parameter_extractor.py, src/pipeline/ipg_pipeline.py,
src/core/normalization/model_normalization.py), together with theorems about
the specified behaviour.

Modelling conventions:
* Python strings are modelled as `List Char` (Unicode code points), with
  `String` wrappers at the outer interfaces.  `str.lower()` is modelled for
  the ASCII and Cyrillic ranges actually used by the patterns and data of
  this repository; `\w` of Python's `re` module is modelled as
  ASCII-alphanumeric, underscore, or a code point of the Cyrillic block
  U+0400–U+04FF (which contains every Ukrainian/Russian letter used here).
* Python floats (confidence scores) are modelled as rationals; the code only
  ever compares them, so exact representation issues do not arise for the
  properties below.
* Registries that the code loads from data files (the canonical-model map,
  the model-metadata CSV, the manufacturer/equipment synonym tables and the
  parameter glossary) are passed as explicit association-list parameters.
* Python dicts that act as records become structures; object identity is
  modelled by structural equality (the code compares records with `==`
  everywhere that matters for the claims).
-/

namespace AutoSpacy

/-! ## Characters and basic string helpers -/

/-- Python `str.isspace`-style whitespace, the set matched by `\s` in `re`
(space, tab, newline, carriage return, vertical tab, form feed). -/
def pyIsSpace (c : Char) : Bool :=
  c == ' ' || c == '\t' || c == '\n' || c == '\r' || c == '\x0b' || c == '\x0c'

/-- The characters matched by `\w` in Python regular expressions, restricted
to the scripts this repository uses: ASCII alphanumerics, underscore, and the
Cyrillic block U+0400–U+04FF. -/
def isWordChar (c : Char) : Bool :=
  c.isAlphanum || c == '_' || (0x400 ≤ c.toNat && c.toNat ≤ 0x4FF)

/-- Python `str.lower` for the ASCII and Cyrillic ranges used by the repository. -/
def pyLowerChar (c : Char) : Char :=
  if 'A' ≤ c && c ≤ 'Z' then Char.ofNat (c.toNat + 32)
  else if 0x410 ≤ c.toNat && c.toNat ≤ 0x42F then Char.ofNat (c.toNat + 0x20)
  else if 0x400 ≤ c.toNat && c.toNat ≤ 0x40F then Char.ofNat (c.toNat + 0x50)
  else if c.toNat == 0x490 then Char.ofNat 0x491
  else c

def pyLower (s : List Char) : List Char := s.map pyLowerChar

/-- Python `str.strip()`: remove leading and trailing whitespace. -/
def pyStrip (s : List Char) : List Char :=
  ((s.dropWhile pyIsSpace).reverse.dropWhile pyIsSpace).reverse

def pyLowerStr (s : String) : String := ⟨pyLower s.data⟩

def pyStripStr (s : String) : String := ⟨pyStrip s.data⟩

/-- Slice `text[a:b]` on a list of characters. -/
def slice (s : List Char) (a b : Nat) : List Char := (s.drop a).take (b - a)

/-- Does `pat` occur as a prefix of `s`? -/
def prefixAt : List Char → List Char → Bool
  | [], _ => true
  | _ :: _, [] => false
  | p :: ps, c :: cs => p == c && prefixAt ps cs

/-- Does `pat` occur in `s` starting at index `i`? -/
def occursAt (pat s : List Char) (i : Nat) : Bool := prefixAt pat (s.drop i)

/-- Length of the run of characters satisfying `p` at the head of the list. -/
def runLen (p : Char → Bool) : List Char → Nat
  | [] => 0
  | c :: cs => if p c then runLen p cs + 1 else 0

/-- Length of the whitespace run of `s` starting at index `i`. -/
def wsRunLen (s : List Char) (i : Nat) : Nat := runLen pyIsSpace (s.drop i)

/-- Index just past the maximal `\w*` run of `s` starting at index `i`. -/
def wordRunEnd (s : List Char) (i : Nat) : Nat := i + runLen isWordChar (s.drop i)

/-- Boundary `\b` holds just before index `i` (start of string, or previous character
is not a word character). -/
def boundaryBefore (s : List Char) (i : Nat) : Bool :=
  i == 0 || !isWordChar (s.getD (i - 1) ' ')

/-- Boundary `\b` holds at index `j` looking right (end of string, or the character at
`j` is not a word character). -/
def boundaryAt (s : List Char) (j : Nat) : Bool :=
  j ≥ s.length || !isWordChar (s.getD j ' ')

/-- Distance between two natural numbers, `abs(a - b)` of the Python code. -/
def natDist (a b : Nat) : Nat := max a b - min a b

theorem prefixAt_length {pat s : List Char} (h : prefixAt pat s = true) :
    pat.length ≤ s.length := by
  induction pat generalizing s with
  | nil => simp
  | cons p ps ih =>
    cases s with
    | nil => simp [prefixAt] at h
    | cons c cs =>
      simp only [prefixAt, Bool.and_eq_true] at h
      simpa [List.length_cons, Nat.succ_le_succ_iff] using ih h.2

theorem occursAt_le {pat s : List Char} {i : Nat} (h : occursAt pat s i = true) :
    i + pat.length ≤ s.length ∨ s.length ≤ i := by
  rcases Nat.le_total s.length i with hle | hle
  · exact Or.inr hle
  · left
    have := prefixAt_length h
    simp only [List.length_drop] at this
    omega

/-! ## Canonical model registry (src/core/normalization/model_normalization.py)

`load_canonical_models` builds a dict mapping lowercased original names to
canonical names; we take that mapping as an association-list parameter
`canon` (first binding wins, as in a Python dict built by repeated
assignment the *last* assignment wins — we therefore look keys up with
`lookupLast`; for registries with distinct keys the two coincide). -/

/-- Python `dict.get`: the value of the last binding of `k`, if any
(later assignments overwrite earlier ones). -/
def dictGet {α : Type} (m : List (String × α)) (k : String) : Option α :=
  (m.reverse.find? (fun p => p.1 == k)).map (·.2)

/-- Embeds `normalize_model` (src/core/normalization/model_normalization.py,
lines 44–66): `None` for falsy input, otherwise a strict lookup of the
stripped, lowercased name; no fallback. -/
def normalize_model (canon : List (String × String)) (model_name : String) : Option String :=
  if model_name == "" then none
  else dictGet canon (pyLowerStr (pyStripStr model_name))

/-! ## Keyword pattern detectors (src/pipeline/processors/llm_processor.py)

The two detectors run a fixed list of regular expressions over the
lowercased text.  Each pattern is one of a small number of shapes, which we
embed directly:

* `\bstem\w*\b` — `stem` occurs with a word boundary before it (the
  trailing `\w*\b` is always satisfiable by consuming the rest of the word);
* `\bphrase\b` — a literal alternative occurs with boundaries on both sides;
* `\bstem\w* (a|b)\b` — stem with boundary before, then the maximal word
  run, then a literal space and one of the alternatives with a trailing
  boundary;
* `\b(p|q)[-\s]?stem…` — a prefix alternative, an optional `-`/whitespace
  separator and a stem, with a boundary before the prefix (and, where the
  pattern ends in `\b` rather than `\w*\b`, a trailing boundary);
* gap patterns `X\w*\b.{0,30}\bY` — `X`, its word run, at most 30
  non-newline characters, then `Y`.

Optional prefixes such as `(can\s+i\s+)?` are omitted: they end in `\s+`,
so whenever the pattern matches with the prefix it also matches starting at
the verb (the preceding whitespace provides the word boundary). -/

/-- Pattern `\bstem\w*\b` matches somewhere in `s`. -/
def stemMatch (stem : List Char) (s : List Char) : Bool :=
  (List.range (s.length + 1)).any fun i =>
    occursAt stem s i && boundaryBefore s i

/-- Pattern `\bphrase\b` matches somewhere in `s`. -/
def phraseMatch (phrase : List Char) (s : List Char) : Bool :=
  (List.range (s.length + 1)).any fun i =>
    occursAt phrase s i && boundaryBefore s i && boundaryAt s (i + phrase.length)

/-- Pattern `\bstem\w* (alt₁|…|altₙ)\b` matches somewhere in `s`. -/
def stemSpaceAlt (stem : List Char) (alts : List (List Char)) (s : List Char) : Bool :=
  (List.range (s.length + 1)).any fun i =>
    occursAt stem s i && boundaryBefore s i &&
      (let e := wordRunEnd s (i + stem.length)
       decide (e < s.length) && s.getD e ' ' == ' ' &&
         alts.any fun a => occursAt a s (e + 1) && boundaryAt s (e + 1 + a.length))

/-- All concrete spellings of `pre[-\s]?stem`. -/
def sepCombos (pres stems : List (List Char)) : List (List Char) :=
  pres.flatMap fun pre => stems.flatMap fun st =>
    (pre ++ st) ::
      (['-', ' ', '\t', '\n', '\r', '\x0b', '\x0c'].map fun c => pre ++ [c] ++ st)

/-- All concrete spellings of `pre[- ]?stem` — the narrower character class
of the `\bac[- ]?coupling\b` pattern, which allows only a hyphen or a plain
space as separator (not the whole of `\s`). -/
def sepCombosHS (pres stems : List (List Char)) : List (List Char) :=
  pres.flatMap fun pre => stems.flatMap fun st =>
    (pre ++ st) :: (['-', ' '].map fun c => pre ++ [c] ++ st)

/-- Pattern `\b(pre…)[-\s]?(stem…)\w*\b` matches at index `i` (trailing `\w*\b` is
always satisfiable). -/
def comboAt (combos : List (List Char)) (s : List Char) (i : Nat) : Bool :=
  boundaryBefore s i && combos.any fun cb => occursAt cb s i

/-- Pattern `\b(pre…)[-\s]?(stem…)\b` matches at index `i` (with a trailing hard
boundary, used by the English `(3|three)[-\s]?phase\b`). -/
def comboAtB (combos : List (List Char)) (s : List Char) (i : Nat) : Bool :=
  boundaryBefore s i && combos.any fun cb =>
    occursAt cb s i && boundaryAt s (i + cb.length)

/-- The characters of `s` in `[e, j)` are all different from `'\n'`
(`.{0,30}` does not match newlines) and `j - e ≤ 30`. -/
def gapOk (s : List Char) (e j : Nat) : Bool :=
  decide (j - e ≤ 30) && (List.range (j - e)).all fun d => !(s.getD (e + d) ' ' == '\n')

/-- Gap pattern `\b(verb…)\w*\b.{0,30}` followed by `tail` at the position
after the gap: some verb occurs at `i` with a boundary before it; `e` is the
end of its word run; some `j ∈ [e, e+30]` within the string satisfies `tail`. -/
def verbThen (verbs : List (List Char)) (tail : Nat → Bool) (s : List Char) : Bool :=
  (List.range (s.length + 1)).any fun i =>
    boundaryBefore s i && verbs.any fun v =>
      occursAt v s i &&
        (let e := wordRunEnd s (i + v.length)
         (List.range 31).any fun d =>
           decide (e + d ≤ s.length) && gapOk s e (e + d) && tail (e + d))

/-- Gap pattern with a phase token first: `combos` at `i`, then its word
run, then at most 30 non-newline characters, then `tail`. -/
def comboThen (combos : List (List Char)) (tail : Nat → Bool) (s : List Char) : Bool :=
  (List.range (s.length + 1)).any fun i =>
    boundaryBefore s i && combos.any fun cb =>
      occursAt cb s i &&
        (let e := wordRunEnd s (i + cb.length)
         (List.range 31).any fun d =>
           decide (e + d ≤ s.length) && gapOk s e (e + d) && tail (e + d))

/-- Pattern `\b(pre…)[-\s]?(stem…)\b` matches somewhere in `s`. -/
def comboAtBSomewhere (combos : List (List Char)) (s : List Char) : Bool :=
  (List.range (s.length + 1)).any fun i => comboAtB combos s i

/-- The `(3|три)[-\s]?(фаз|фазн)` spellings (Ukrainian patterns; `фазн` is
listed in the source although it is subsumed by `фаз`). -/
def phaseUA : List (List Char) := sepCombos ["3".data, "три".data] ["фаз".data, "фазн".data]

/-- The `(3|три)[-\s]?фаз` spellings (Russian pattern). -/
def phaseRU : List (List Char) := sepCombos ["3".data, "три".data] ["фаз".data]

/-- The `(3|three)[-\s]?phase` spellings (English pattern, hard trailing `\b`). -/
def phaseEN : List (List Char) := sepCombos ["3".data, "three".data] ["phase".data]

/-- Embeds `detect_parallel_query` (src/pipeline/processors/llm_processor.py,
lines 7–59): any of the parallel/stack stems, or an action verb within 30
characters of a 3-phase mention (in either order for Ukrainian). -/
def detect_parallel_query (text : String) : Bool :=
  let s := pyLower text.data
  -- Ukrainian/Russian/English `\b…\w*\b` stems
  stemMatch "паралел".data s || stemMatch "паралельн".data s || stemMatch "стек".data s ||
  stemMatch "параллел".data s || stemMatch "параллельн".data s ||
  stemMatch "parallel".data s || stemMatch "stack".data s || phraseMatch "stacking".data s ||
  -- Ukrainian: action verb then 3-phase
  verbThen (["зібрат", "зробит", "побудуват", "реалізуват", "створит", "підключит",
             "використат"].map String.data)
    (fun j => comboAt phaseUA s j) s ||
  -- Ukrainian: 3-phase then action verb
  comboThen phaseUA
    (fun j => boundaryBefore s j &&
      (["підключат", "зєднуват", "збирати", "використовуват"].map String.data).any
        (fun v => occursAt v s j)) s ||
  -- Russian: action verb then 3-phase
  verbThen (["собрат", "сделат", "построит", "реализоват", "создат", "подключит",
             "использоват"].map String.data)
    (fun j => comboAt phaseRU s j) s ||
  -- English: action verb then 3-phase (with hard trailing boundary)
  verbThen (["build", "make", "connect", "configure", "create", "use"].map String.data)
    (fun j => comboAtB phaseEN s j) s

/-- Embeds `detect_compatibility_query` (src/pipeline/processors/llm_processor.py,
lines 61–88). -/
def detect_compatibility_query (text : String) : Bool :=
  let s := pyLower text.data
  -- Ukrainian
  stemMatch "сумісн".data s ||
  phraseMatch "чи можна підключити".data s ||
  phraseMatch "чи можна з\x27єднати".data s ||
  phraseMatch "чи можна використати".data s ||
  phraseMatch "в одну систему".data s ||
  stemSpaceAlt "чи працю".data ["з".data, "разом".data] s ||
  -- Russian
  stemMatch "совмест".data s ||
  phraseMatch "можно ли подключить".data s ||
  phraseMatch "можно ли соединить".data s ||
  phraseMatch "можно ли использовать".data s ||
  stemSpaceAlt "работа".data ["с".data, "вместе".data] s ||
  -- English
  stemMatch "compat".data s ||
  phraseMatch "can i connect".data s || phraseMatch "can i use".data s ||
  phraseMatch "can i combine".data s ||
  phraseMatch "can we connect".data s || phraseMatch "can we use".data s ||
  phraseMatch "can we combine".data s ||
  phraseMatch "work with".data s || phraseMatch "work together".data s ||
  comboAtBSomewhere (sepCombosHS ["ac".data] ["coupling".data]) s

/-! ## Segmenter (src/pipeline/exctractors/parameter_extractor.py)

`CONJUNCTION_REGEX` is `\s+(?:і|та|и|а|й|,|;)\s+|\s+(?:and|or|,|;)\s+`,
compiled with `re.IGNORECASE`: the alternatives also match their uppercase
forms (`AND`, `ТА`, `І`, …), which we model by testing the lowercase
alternatives against the lowercased text (positions are unchanged, and the
`\s` runs are case-invariant).  A match at position `i` is: the maximal
whitespace run at `i` (at least one character; since no alternative starts
with whitespace, backtracking into `\s+` can never help), then the first
alternative that occurs at the end of the run and is followed by at least
one whitespace character, then the maximal whitespace run after the
alternative.  `finditer` scans left to right, resuming after each match. -/

/-- The conjunction alternatives, in the order the regex tries them
(first branch, then second; `,` and `;` occur in both). -/
def conjAlts : List (List Char) :=
  ["і", "та", "и", "а", "й", ",", ";", "and", "or", ",", ";"].map String.data

/-- The length of the `CONJUNCTION_REGEX` match starting exactly at `i`,
if any. -/
def conjMatchAt (s : List Char) (i : Nat) : Option Nat :=
  let k := wsRunLen s i
  if k = 0 then none
  else
    match conjAlts.find? (fun a =>
        occursAt a (pyLower s) (i + k) && decide (1 ≤ wsRunLen s (i + k + a.length))) with
    | some a => some (k + a.length + wsRunLen s (i + k + a.length))
    | none => none

/-- All `CONJUNCTION_REGEX.finditer` matches `(start, length)` of `s` from
position `i` on, with explicit fuel (`s.length` steps always suffice). -/
def scanMatches (s : List Char) : Nat → Nat → List (Nat × Nat)
  | 0, _ => []
  | fuel + 1, i =>
    if i < s.length then
      match conjMatchAt s i with
      | some L => (i, L) :: scanMatches s fuel (i + L)
      | none => scanMatches s fuel (i + 1)
    else []

/-- A text segment: the source dict `{"text": …, "start": …, "end": …}`
(`end` is a Lean keyword, hence `stop`).  `text` is the *stripped* slice;
`start`/`stop` are the unstripped bounds. -/
structure Segment where
  text : List Char
  start : Nat
  stop : Nat
deriving DecidableEq, Repr

/-- The segment-building loop of `split_into_segments`: one pass over the
matches, keeping each non-empty-after-strip chunk between them. -/
def buildSegs (s : List Char) : Nat → List (Nat × Nat) → List Segment
  | last, [] =>
    if last < s.length then
      let t := pyStrip (slice s last s.length)
      if t ≠ [] then [⟨t, last, s.length⟩] else []
    else []
  | last, (i, L) :: ms =>
    (if last < i then
      let t := pyStrip (slice s last i)
      if t ≠ [] then [⟨t, last, i⟩] else []
     else []) ++ buildSegs s (i + L) ms

/-- Embeds `split_into_segments` (src/pipeline/exctractors/parameter_extractor.py,
lines 73–104). -/
def split_into_segments (text : String) : List Segment :=
  let s := text.data
  let segs := buildSegs s 0 (scanMatches s s.length 0)
  if segs = [] then [⟨s, 0, s.length⟩] else segs

/-- Matches are in bounds, non-empty and ordered, starting no earlier
than `lo`. -/
def ChainFrom (len : Nat) : Nat → List (Nat × Nat) → Prop
  | _, [] => True
  | lo, m :: ms => lo ≤ m.1 ∧ 0 < m.2 ∧ m.1 + m.2 ≤ len ∧ ChainFrom len (m.1 + m.2) ms

/-- Segments are in bounds, ordered and non-overlapping, starting no
earlier than `lo`. -/
def SegsChain (len : Nat) : Nat → List Segment → Prop
  | _, [] => True
  | lo, g :: gs => lo ≤ g.start ∧ g.start ≤ g.stop ∧ g.stop ≤ len ∧ SegsChain len g.stop gs

/-- Segment spans interleaved with the gap substrings between them (the
separator text), starting from position `prev`. -/
def joinWithGaps (s : List Char) : Nat → List Segment → List Char
  | prev, [] => slice s prev s.length
  | prev, g :: gs => slice s prev g.start ++ slice s g.start g.stop ++ joinWithGaps s g.stop gs

/-- The reconstruction the claim describes: concatenate the segment `text`
fields with the original separator substrings lying between consecutive
segments. -/
def joinTextsWithSeps (s : List Char) : List Segment → List Char
  | [] => []
  | [g] => g.text
  | g :: g' :: gs => g.text ++ slice s g.stop g'.start ++ joinTextsWithSeps s (g' :: gs)

theorem runLen_le (p : Char → Bool) (l : List Char) : runLen p l ≤ l.length := by
  induction l with
  | nil => simp [runLen]
  | cons c cs ih =>
    simp only [runLen, List.length_cons]
    split <;> omega

theorem wsRunLen_le (s : List Char) (i : Nat) : wsRunLen s i ≤ s.length - i := by
  simpa [wsRunLen] using runLen_le pyIsSpace (s.drop i)

theorem wsRunLen_pos_lt {s : List Char} {i : Nat} (h : 1 ≤ wsRunLen s i) :
    i < s.length := by
  by_contra hlt
  have : s.drop i = [] := List.drop_eq_nil_of_le (by omega)
  simp [wsRunLen, this, runLen] at h

theorem conjMatchAt_bounds {s : List Char} {i L : Nat}
    (h : conjMatchAt s i = some L) : 0 < L ∧ i + L ≤ s.length := by
  unfold conjMatchAt at h
  set k := wsRunLen s i with hk
  by_cases hk0 : k = 0
  · simp [hk0] at h
  · simp only [hk0, if_false] at h
    cases hfind : conjAlts.find? (fun a =>
        occursAt a (pyLower s) (i + k) && decide (1 ≤ wsRunLen s (i + k + a.length))) with
    | none => rw [hfind] at h; exact absurd h (by simp)
    | some a =>
      rw [hfind] at h
      have hmem := List.mem_of_find?_eq_some hfind
      have hprop := List.find?_some hfind
      simp only [Bool.and_eq_true, decide_eq_true_eq] at hprop
      obtain ⟨hocc, htrail⟩ := hprop
      have halen : 0 < a.length := by
        fin_cases hmem <;> decide
      have hL : L = k + a.length + wsRunLen s (i + k + a.length) := by
        simpa using h.symm
      -- position of the trailing run start is within the string
      have htr_lt : i + k + a.length < s.length := wsRunLen_pos_lt htrail
      have htr_le : wsRunLen s (i + k + a.length) ≤ s.length - (i + k + a.length) :=
        wsRunLen_le s _
      constructor
      · omega
      · omega

theorem chainFrom_mono {len a b : Nat} {ms : List (Nat × Nat)}
    (h : ChainFrom len a ms) (hba : b ≤ a) : ChainFrom len b ms := by
  cases ms with
  | nil => trivial
  | cons m ms =>
    obtain ⟨h1, h2⟩ := h
    exact ⟨Nat.le_trans hba h1, h2⟩

theorem scanMatches_chain (s : List Char) (fuel : Nat) :
    ∀ i, ChainFrom s.length i (scanMatches s fuel i) := by
  induction fuel with
  | zero => intro i; simp [scanMatches, ChainFrom]
  | succ fuel ih =>
    intro i
    simp only [scanMatches]
    split
    · cases hm : conjMatchAt s i with
      | none =>
        show ChainFrom s.length i (scanMatches s fuel (i + 1))
        exact chainFrom_mono (ih (i + 1)) (Nat.le_succ i)
      | some L =>
        have hb := conjMatchAt_bounds hm
        show ChainFrom s.length i ((i, L) :: scanMatches s fuel (i + L))
        exact ⟨Nat.le_refl _, hb.1, hb.2, ih (i + L)⟩
    · simp [ChainFrom]

theorem segsChain_mono {len a b : Nat} {gs : List Segment}
    (h : SegsChain len a gs) (hba : b ≤ a) : SegsChain len b gs := by
  cases gs with
  | nil => trivial
  | cons g gs =>
    obtain ⟨h1, h2⟩ := h
    exact ⟨Nat.le_trans hba h1, h2⟩

theorem buildSegs_chain (s : List Char) :
    ∀ (ms : List (Nat × Nat)) (last : Nat),
      ChainFrom s.length last ms → last ≤ s.length →
      SegsChain s.length last (buildSegs s last ms) := by
  intro ms
  induction ms with
  | nil =>
    intro last _ hlast
    simp only [buildSegs]
    split
    next hlt =>
      split
      · exact ⟨Nat.le_refl _, Nat.le_of_lt hlt, Nat.le_refl _, trivial⟩
      · trivial
    next => trivial
  | cons m ms ih =>
    intro last hchain hlast
    obtain ⟨hlo, hpos, hin, hrest⟩ := hchain
    have hrec := ih (m.1 + m.2) hrest hin
    have hstep : m.1 ≤ m.1 + m.2 := Nat.le_add_right _ _
    simp only [buildSegs]
    split
    next hlt =>
      split
      · exact ⟨Nat.le_refl _, Nat.le_of_lt hlt,
          (show m.1 ≤ s.length by omega), segsChain_mono hrec hstep⟩
      · exact segsChain_mono hrec (show last ≤ m.1 + m.2 by omega)
    next => exact segsChain_mono hrec (show last ≤ m.1 + m.2 by omega)

theorem buildSegs_text (s : List Char) :
    ∀ (ms : List (Nat × Nat)) (last : Nat),
      (buildSegs s last ms).all
        (fun g => g.text == pyStrip (slice s g.start g.stop)) = true := by
  intro ms
  induction ms with
  | nil =>
    intro last
    simp only [buildSegs]
    split
    · split
      · simp
      · simp
    · simp
  | cons m ms ih =>
    intro last
    simp only [buildSegs, List.all_append, Bool.and_eq_true]
    refine ⟨?_, ih (m.1 + m.2)⟩
    split
    · split
      · simp
      · simp
    · simp

theorem slice_append {s : List Char} {a b c : Nat} (hab : a ≤ b) (hbc : b ≤ c) :
    slice s a b ++ slice s b c = slice s a c := by
  unfold slice
  have h1 : s.drop b = (s.drop a).drop (b - a) := by
    rw [List.drop_drop]
    congr 1
    omega
  rw [h1]
  have h2 : c - a = (b - a) + (c - b) := by omega
  rw [h2, List.take_add]

theorem joinWithGaps_eq (s : List Char) :
    ∀ (gs : List Segment) (prev : Nat),
      SegsChain s.length prev gs → prev ≤ s.length →
      joinWithGaps s prev gs = s.drop prev := by
  intro gs
  induction gs with
  | nil =>
    intro prev _ hprev
    show slice s prev s.length = s.drop prev
    unfold slice
    rw [← List.length_drop, List.take_length]
  | cons g gs ih =>
    intro prev hchain hprev
    obtain ⟨h1, h2, h3, hrest⟩ := hchain
    show slice s prev g.start ++ slice s g.start g.stop ++ joinWithGaps s g.stop gs
        = s.drop prev
    rw [slice_append h1 h2, ih g.stop hrest h3]
    have hd : s.drop g.stop = (s.drop prev).drop (g.stop - prev) := by
      rw [List.drop_drop]
      congr 1
      omega
    rw [slice, hd, List.take_append_drop]

/-- C7 counterexample: for the input `" a"` the single returned segment has
stripped text `"a"`, so re-concatenating the segment texts with the (here
absent) separator substrings yields `"a"`, not the original `" a"`. -/
theorem c7_segments_counterexample :
    split_into_segments " a" = [⟨"a".data, 0, 2⟩] ∧
    joinTextsWithSeps " a".data (split_into_segments " a") ≠ " a".data := by
  constructor
  · decide
  · decide

/-- C7 (amended): for every input, the segments returned by
`split_into_segments` are ordered by position with non-overlapping in-bounds
`[start, stop)` spans, and concatenating the *span substrings* `text[start:stop]`
with the original separator substrings between them reproduces the input
exactly; each segment's `text` field is the whitespace-*stripped* span
(except in the degenerate fallback where no segment survives stripping and
the whole raw text is returned as one segment), which is why reconstruction
from the `text` fields alone can drop leading/trailing whitespace. -/
theorem c7_segments_sound (text : String) :
    SegsChain text.data.length 0 (split_into_segments text) ∧
    joinWithGaps text.data 0 (split_into_segments text) = text.data ∧
    ((split_into_segments text).all
        (fun g => g.text == pyStrip (slice text.data g.start g.stop)) = true ∨
      split_into_segments text = [⟨text.data, 0, text.data.length⟩]) := by
  have hchain0 : ChainFrom text.data.length 0
      (scanMatches text.data text.data.length 0) := scanMatches_chain _ _ 0
  have hb := buildSegs_chain text.data _ 0 hchain0 (Nat.zero_le _)
  by_cases hnil : buildSegs text.data 0 (scanMatches text.data text.data.length 0) = []
  · have hs : split_into_segments text = [⟨text.data, 0, text.data.length⟩] := by
      unfold split_into_segments
      rw [if_pos hnil]
    refine ⟨?_, ?_, Or.inr hs⟩
    · rw [hs]
      exact ⟨Nat.le_refl _, Nat.zero_le _, Nat.le_refl _, trivial⟩
    · rw [hs]
      have : SegsChain text.data.length 0 [⟨text.data, 0, text.data.length⟩] :=
        ⟨Nat.le_refl _, Nat.zero_le _, Nat.le_refl _, trivial⟩
      rw [joinWithGaps_eq text.data _ 0 this (Nat.zero_le _)]
      simp
  · have hs : split_into_segments text =
        buildSegs text.data 0 (scanMatches text.data text.data.length 0) := by
      unfold split_into_segments
      rw [if_neg hnil]
    refine ⟨?_, ?_, Or.inl ?_⟩
    · rw [hs]; exact hb
    · rw [hs, joinWithGaps_eq text.data _ 0 hb (Nat.zero_le _)]
      simp
    · rw [hs]; exact buildSegs_text text.data _ 0

/-! ## Data model -/

/-- A retained parameter match, as produced by `find_parameters`
(src/pipeline/exctractors/parameter_extractor.py).  Exact matches carry no
`fuzzy_score`, fuzzy ones do. -/
structure PMatch where
  key : String
  synonym_matched : String
  confidence : ℚ
  position : Nat
  end_position : Nat
  extracted_value : String
  match_type : String
  fuzzy_score : Option ℚ := none
deriving DecidableEq, Repr

/-- A MODEL entity of the pipeline's `extracted_entities["model"]` as read by
`determine_status`, which accesses only its `"value"` field (the canonical
value, `None` when unresolved). -/
structure ModelEnt where
  value : Option String
deriving DecidableEq, Repr

/-! ## Status classification (src/pipeline/processors/llm_processor.py) -/

/-- Embeds `determine_status` (src/pipeline/processors/llm_processor.py, lines
91–131).  The Python function receives the `extracted_entities` dict and
reads its `"model"` and `"parameters"` lists, passed here as the two list
arguments. -/
def determine_status (models : List ModelEnt) (parameters : List PMatch)
    (original_text : String) : String :=
  if detect_parallel_query original_text then "parallel"
  else if detect_compatibility_query original_text then "compat"
  else
    let valid_models := models.filter fun m => m.value.isSome
    let num_valid_models := valid_models.length
    let num_params := parameters.length
    if 1 ≤ num_valid_models ∧ 1 ≤ num_params then
      if num_valid_models ≤ 2 ∧ num_params ≤ 2 then "simple" else "complex"
    else "complex"

/-! ## Binder and router
(src/pipeline/exctractors/parameter_extractor.py, lines 399–566) -/

/-- Metadata attached to a canonical model by `get_model_metadata`
(src/core/normalization/model_metadata.py): the CSV row, passed as an
association-list parameter keyed by lowercased `model_code`. -/
structure MMeta where
  manufacturer : String
  equipment_type : String
deriving DecidableEq, Repr

/-- Embeds `get_model_metadata` (src/core/normalization/model_metadata.py,
lines 58–75). -/
def get_model_metadata (mmeta : List (String × MMeta)) (canonical_model : String) :
    Option MMeta :=
  if canonical_model == "" then none
  else dictGet mmeta (pyLowerStr (pyStripStr canonical_model))

/-- A MODEL dict as handed to `map_parameters_to_models` by
`process_question`: `value`/`confidence` are carried along, the binder reads
`original_value`, `position` and `metadata`. -/
structure NerModel where
  value : Option String := none
  confidence : ℚ := 0
  position : Nat
  original_value : String
  metadata : Option MMeta := none
deriving DecidableEq, Repr

/-- A MANUFACTURER or EQ_TYPE entity dict as read by the binder
(`value` and `position`). -/
structure SimpleEnt where
  value : String
  position : Nat
deriving DecidableEq, Repr

/-- A model together with the `"canonical"` field that
`map_parameters_to_models` adds (`normalize_model` of `original_value`). -/
structure CModel where
  base : NerModel
  canonical : Option String
deriving DecidableEq, Repr

/-- One SQL sub-query emitted by the binder. -/
structure SubQuery where
  manufacturer : String
  model : String
  equipment_type : Option String
  parameter : String
  original_part : String
  confidence : ℚ
  match_type : String
deriving DecidableEq, Repr

/-- The `m["canonical"] = normalize_model(m.get("original_value", ""))`
enrichment pass. -/
def withCanonical (canon : List (String × String)) (models : List NerModel) :
    List CModel :=
  models.map fun m => ⟨m, normalize_model canon m.original_value⟩

/-- Python truthiness of the optional canonical string
(`if m.get("canonical")`). -/
def truthyOpt : Option String → Bool
  | none => false
  | some s => !(s == "")

/-- Embeds `valid_models = [m for m in models if m.get("canonical")]`. -/
def validModelsOf (canon : List (String × String)) (models : List NerModel) :
    List CModel :=
  (withCanonical canon models).filter fun m => truthyOpt m.canonical

/-- Python `min(x :: xs, key=f)`: the first element attaining the minimum. -/
def argminBy {α : Type} (f : α → Nat) (x : α) (xs : List α) : α :=
  xs.foldl (fun best y => if f y < f best then y else best) x

/-- Models assigned to a segment: `seg_start <= position < seg_end`. -/
def segModels (valid : List CModel) (g : Segment) : List CModel :=
  valid.filter fun m =>
    decide (g.start ≤ m.base.position) && decide (m.base.position < g.stop)

/-- Embeds `overlaps_with_segment` with `BORDER_TOLERANCE = 2` (parameters may
straddle a segment boundary by a couple of characters). -/
def overlapsSegment (p : PMatch) (g : Segment) : Bool :=
  !(decide ((p.end_position : Int) < (g.start : Int) - 2) ||
    decide ((p.position : Int) > (g.stop : Int) + 2))

/-- Parameters assigned to a segment (overlap test). -/
def segParams (params : List PMatch) (g : Segment) : List PMatch :=
  params.filter fun p => overlapsSegment p g

/-- Manufacturers assigned to a segment. -/
def segManufs (manufs : List SimpleEnt) (g : Segment) : List SimpleEnt :=
  manufs.filter fun m => decide (g.start ≤ m.position) && decide (m.position < g.stop)

/-- Equipment types assigned to a segment. -/
def segEqs (eqs : List SimpleEnt) (g : Segment) : List SimpleEnt :=
  eqs.filter fun e => decide (g.start ≤ e.position) && decide (e.position < g.stop)

/-- The model the binder pairs a parameter with: the positionally closest
model of the segment if the segment holds any, otherwise the closest valid
model overall (`vhead :: vtail` is the non-empty valid list). -/
def closestModelFor (vhead : CModel) (vtail : List CModel) (g : Segment)
    (param : PMatch) : CModel :=
  let dist := fun (m : CModel) => natDist m.base.position param.position
  match segModels (vhead :: vtail) g with
  | [] => argminBy dist vhead vtail
  | m :: ms => argminBy dist m ms

/-- The manufacturer field of a sub-query: closest manufacturer in the
segment, else the bound model's metadata, else the first manufacturer. -/
def manufacturerFor (closest : CModel) (manufacturers : List SimpleEnt)
    (g : Segment) (param : PMatch) : String :=
  match segManufs manufacturers g with
  | [] =>
    let mv := (closest.base.metadata.map (·.manufacturer)).getD ""
    if mv = "" then
      match manufacturers with
      | [] => mv
      | m0 :: _ => m0.value
    else mv
  | m :: ms => (argminBy (fun x => natDist x.position param.position) m ms).value

/-- The equipment-type field of a sub-query: first equipment type in the
segment, else the bound model's metadata, else the first equipment type. -/
def eqTypeFor (closest : CModel) (eq_types : List SimpleEnt) (g : Segment) :
    Option String :=
  match segEqs eq_types g with
  | [] =>
    let ev := closest.base.metadata.map (·.equipment_type)
    if ev = none ∨ ev = some "" then
      match eq_types with
      | [] => ev
      | e0 :: _ => some e0.value
    else ev
  | e0 :: _ => some e0.value

/-- The sub-query the binder emits for one parameter of one segment;
`vhead :: vtail` is the non-empty list of valid models. -/
def mkSubQuery (vhead : CModel) (vtail : List CModel)
    (manufacturers eq_types : List SimpleEnt) (g : Segment) (param : PMatch) :
    SubQuery :=
  { manufacturer :=
      manufacturerFor (closestModelFor vhead vtail g param) manufacturers g param,
    model := (closestModelFor vhead vtail g param).canonical.getD "",
    equipment_type := eqTypeFor (closestModelFor vhead vtail g param) eq_types g,
    parameter := param.key,
    original_part := param.extracted_value, confidence := param.confidence,
    match_type := param.match_type }

/-- Embeds `map_parameters_to_models` (src/pipeline/exctractors/parameter_extractor.py,
lines 399–530; the `print` statements are side-effect only). -/
def map_parameters_to_models (canon : List (String × String))
    (parameters : List PMatch) (models : List NerModel)
    (manufacturers eq_types : List SimpleEnt) (text : String) : List SubQuery :=
  match validModelsOf canon models with
  | [] =>
    parameters.map fun param =>
      { manufacturer := match manufacturers with | [] => "" | m :: _ => m.value,
        model := "ALL_LISTED",
        equipment_type := match eq_types with | [] => none | e :: _ => some e.value,
        parameter := param.key, original_part := param.extracted_value,
        confidence := param.confidence, match_type := param.match_type }
  | vhead :: vtail =>
    let segments := split_into_segments text
    segments.foldr
      (fun g acc =>
        (segParams parameters g).map (mkSubQuery vhead vtail manufacturers eq_types g)
          ++ acc)
      []

/-- The routing decisions `build_routing` can return (dicts with a
`recommended_strategy` key in the source). -/
inductive RoutingDecision where
  | noEnts (message : String)
  | single (sub_query : SubQuery)
  | multi (sub_queries : List SubQuery)
deriving DecidableEq, Repr

/-- The `recommended_strategy` string of a routing decision. -/
def RoutingDecision.strategy : RoutingDecision → String
  | noEnts _ => "noEntities"
  | single _ => "single_query"
  | multi _ => "multi_query"

/-- Embeds `build_routing` (src/pipeline/exctractors/parameter_extractor.py, lines
533–566).  The `ner_entities` dict is passed as its three lists. -/
def build_routing (canon : List (String × String))
    (manufacturers : List SimpleEnt) (models : List NerModel)
    (eq_types : List SimpleEnt) (parameters : List PMatch) (text : String) :
    RoutingDecision :=
  if manufacturers = [] ∧ models = [] ∧ parameters = [] then
    .noEnts "No entities detected"
  else
    match map_parameters_to_models canon parameters models manufacturers eq_types text with
    | [] => .noEnts "No valid parameter-model bindings"
    | [q] => .single q
    | q :: q' :: qs => .multi (q :: q' :: qs)

/-! ## Entity extraction
(src/pipeline/exctractors/parameter_extractor.py, lines 55–152)

`extract_entities_with_metadata` runs the NER model (a black box per the
spec) and post-processes its spans; we embed the post-processing over an
arbitrary span list.  `clean_word`/`normalize_entity` live in
`core.normalization.entity_normalization`, which is absent from the source
tree; the repository carries the same functions in src/app/normalization.py
and src/api.py, which we embed (with the synonym tables as parameters). -/

/-- A labelled NER span (`doc.ents` entry): label, surface text and
character offsets. -/
structure NerSpan where
  label : String
  text : String
  start_char : Nat
  end_char : Nat
deriving DecidableEq, Repr

/-- The stopword set of `is_stopword_or_common`
(src/pipeline/exctractors/parameter_extractor.py, lines 55–70). -/
def stopwords : List String :=
  ["які", "який", "яка", "яке", "що", "чи", "для", "від", "при",
   "під", "над", "про", "без", "через", "після", "перед", "біля", "коло",
   "поза", "між", "поміж", "серед", "вздовж", "всередині",
   "какой", "какая", "какое", "какие", "что", "для", "от", "при",
   "под", "над", "про", "без", "через", "после", "перед",
   "what", "which", "how", "for", "from", "with", "without", "the",
   "this", "that", "these", "those", "and", "or", "give", "me", "tell",
   "inverter", "battery"]

/-- Embeds `is_stopword_or_common`: membership of `word.lower().strip()` in the
stopword set. -/
def is_stopword_or_common (word : String) : Bool :=
  stopwords.contains (pyStripStr (pyLowerStr word))

/-- The characters `clean_word` keeps at the edges
(`[^\w\d\-\.]` is trimmed; `\d ⊆ \w`). -/
def keepChar (c : Char) : Bool := isWordChar c || c == '-' || c == '.'

/-- Embeds `clean_word` (src/app/normalization.py, line 172):
`re.sub(r"^[^\w\d\-\.]+|[^\w\d\-\.]+$", "", word.strip())`. -/
def clean_word (word : String) : String :=
  let t := pyStrip word.data
  ⟨((t.dropWhile fun c => !keepChar c).reverse.dropWhile fun c => !keepChar c).reverse⟩

/-- Embeds `normalize_entity` (src/app/normalization.py, lines 175–185): for
EQ_TYPE/MANUFACTURER a case-insensitive exact lookup over the synonym
tables (passed as parameters, insertion order preserved), falling back to
the word unchanged. -/
def normalize_entity (equipT manufT : List (String × List String))
    (word : String) (label : String) : String :=
  let word_lower := pyLowerStr word
  if label == "EQ_TYPE" then
    match equipT.find? (fun p => p.2.any fun v => word_lower == pyLowerStr v) with
    | some p => p.1
    | none => word
  else if label == "MANUFACTURER" then
    match manufT.find? (fun p => p.2.any fun v => word_lower == pyLowerStr v) with
    | some p => p.1
    | none => word
  else word

/-- An entity dict built by `extract_entities_with_metadata`.  For MODEL
entities `value` is the canonical value (possibly `none`); for the other
labels it is the normalized text. -/
structure EEnt where
  value : Option String
  confidence : ℚ
  position : Nat
  end_position : Nat
  original_value : Option String := none
  metadata : Option MMeta := none
deriving DecidableEq, Repr

/-- Replace the list bound to `label` (the key is present). -/
def groupedUpdate (g : List (String × List EEnt)) (label : String)
    (l : List EEnt) : List (String × List EEnt) :=
  g.map fun p => if p.1 == label then (label, l) else p

/-- Lookup `grouped[label]`, defaulting to the empty list. -/
def entitiesFor (g : List (String × List EEnt)) (label : String) : List EEnt :=
  ((g.find? (fun p => p.1 == label)).map (·.2)).getD []

/-- The duplicate-check / append part of the extraction loop, on a dict in
which `label` is already present. -/
def insertEntityIn (g1 : List (String × List EEnt)) (label : String) (e : EEnt) :
    List (String × List EEnt) :=
  match (g1.find? (fun p => p.1 == label)).map (·.2) with
  | some lst =>
    if lst.any (fun x => x.value == e.value) then g1
    else groupedUpdate g1 label (lst ++ [e])
  | none => g1

/-- The `grouped[label] = []` / duplicate-check / append block at the end of
the extraction loop: ensure the key exists, then append the entity unless an
entity with the same `value` is already kept under this label. -/
def insertEntity (g : List (String × List EEnt)) (label : String) (e : EEnt) :
    List (String × List EEnt) :=
  insertEntityIn
    (if (g.find? (fun p => p.1 == label)).isSome then g else g ++ [(label, [])])
    label e

/-- The source's `confidence = min(0.95, 0.7 + len(ent.text) / 50)`. -/
def spanConfidence (ent : NerSpan) : ℚ :=
  min (19/20 : ℚ) (7/10 + (ent.text.data.length : ℚ) / 50)

/-- The entity dict built for one span (lines 119–143): the `normalized`
value for most labels; for MODEL the canonical value (possibly `none`), the
original text, and — when a canonical value exists — the CSV metadata. -/
def entityFor (equipT manufT : List (String × List String))
    (canon : List (String × String)) (mmeta : List (String × MMeta))
    (ent : NerSpan) : EEnt :=
  if ent.label == "MODEL" then
    { value := normalize_model canon ent.text, confidence := spanConfidence ent,
      position := ent.start_char, end_position := ent.end_char,
      original_value := some ent.text,
      metadata :=
        match normalize_model canon ent.text with
        | some c => if c ≠ "" then get_model_metadata mmeta c else none
        | none => none }
  else
    { value := some (normalize_entity equipT manufT (clean_word ent.text) ent.label),
      confidence := spanConfidence ent,
      position := ent.start_char, end_position := ent.end_char }

/-- One iteration of the `for ent in doc.ents` loop of
`extract_entities_with_metadata` (lines 116–150): drop stopword-normalized
MANUFACTURER spans, otherwise insert the entity under its label. -/
def extractStep (equipT manufT : List (String × List String))
    (canon : List (String × String)) (mmeta : List (String × MMeta))
    (g : List (String × List EEnt)) (ent : NerSpan) :
    List (String × List EEnt) :=
  if ent.label == "MANUFACTURER" &&
      is_stopword_or_common
        (normalize_entity equipT manufT (clean_word ent.text) ent.label) then g
  else insertEntity g ent.label (entityFor equipT manufT canon mmeta ent)

/-- Embeds `extract_entities_with_metadata` (src/pipeline/exctractors/
parameter_extractor.py, lines 107–152), over the span list produced by the
(black-box) NER model. -/
def extract_entities_with_metadata (equipT manufT : List (String × List String))
    (canon : List (String × String)) (mmeta : List (String × MMeta))
    (ents : List NerSpan) : List (String × List EEnt) :=
  ents.foldl (extractStep equipT manufT canon mmeta) []

theorem insertEntityIn_forall (P : String → List EEnt → Prop)
    (g1 : List (String × List EEnt)) (label : String) (e : EEnt)
    (hg1 : ∀ p ∈ g1, P p.1 p.2)
    (hextend : ∀ lst, P label lst →
      lst.any (fun x => x.value == e.value) = false → P label (lst ++ [e])) :
    ∀ p ∈ insertEntityIn g1 label e, P p.1 p.2 := by
  cases hfind : (g1.find? (fun p => p.1 == label)).map (·.2) with
  | none =>
    have hid : insertEntityIn g1 label e = g1 := by
      unfold insertEntityIn
      rw [hfind]
    rw [hid]
    exact hg1
  | some lst =>
    obtain ⟨q, hq, hq2⟩ := Option.map_eq_some'.mp hfind
    have hqmem := List.mem_of_find?_eq_some hq
    have hqkey : q.1 = label := by
      simpa using List.find?_some hq
    have hPlst : P label lst := by
      have := hg1 q hqmem
      rw [hqkey, hq2] at this
      exact this
    have heq : insertEntityIn g1 label e =
        (if lst.any (fun x => x.value == e.value) then g1
         else groupedUpdate g1 label (lst ++ [e])) := by
      unfold insertEntityIn
      rw [hfind]
    rw [heq]
    split
    · exact hg1
    next hany =>
      have hany' : lst.any (fun x => x.value == e.value) = false := by
        revert hany
        cases lst.any fun x => x.value == e.value <;> simp
      intro p hp
      unfold groupedUpdate at hp
      rcases List.mem_map.mp hp with ⟨y, hy, hyeq⟩
      by_cases hylbl : (y.1 == label) = true
      · rw [← hyeq]
        simp only [hylbl, if_true]
        exact hextend lst hPlst hany'
      · rw [← hyeq]
        simp only [hylbl, Bool.false_eq_true, if_false]
        exact hg1 y hy

theorem insertEntity_forall (P : String → List EEnt → Prop)
    (g : List (String × List EEnt)) (label : String) (e : EEnt)
    (hg : ∀ p ∈ g, P p.1 p.2)
    (hempty : ∀ lbl, P lbl [])
    (hextend : ∀ lst, P label lst →
      lst.any (fun x => x.value == e.value) = false → P label (lst ++ [e])) :
    ∀ p ∈ insertEntity g label e, P p.1 p.2 := by
  have hg1 : ∀ p ∈ (if (g.find? (fun p => p.1 == label)).isSome then g
      else g ++ [(label, [])]), P p.1 p.2 := by
    split
    · exact hg
    · intro p hp
      rcases List.mem_append.mp hp with h | h
      · exact hg p h
      · rw [List.mem_singleton.mp h]
        exact hempty label
  exact insertEntityIn_forall P _ label e hg1 hextend

/-- C9: `is_stopword_or_common` contains the common nouns `"inverter"` and
`"battery"`, and every MANUFACTURER entity kept by
`extract_entities_with_metadata` has a non-stopword normalized value — NER
spans labelled MANUFACTURER whose normalized text is a stopword are silently
dropped and never appear in the output. -/
theorem c9_manufacturer_stopword_drop (equipT manufT : List (String × List String))
    (canon : List (String × String)) (mmeta : List (String × MMeta))
    (ents : List NerSpan) :
    is_stopword_or_common "inverter" = true ∧
    is_stopword_or_common "battery" = true ∧
    (entitiesFor (extract_entities_with_metadata equipT manufT canon mmeta ents)
        "MANUFACTURER").all
      (fun e =>
        match e.value with
        | some v => !is_stopword_or_common v
        | none => false) = true := by
  refine ⟨by decide, by decide, ?_⟩
  let pred : EEnt → Bool := fun e =>
    match e.value with
    | some v => !is_stopword_or_common v
    | none => false
  let P : String → List EEnt → Prop := fun lbl lst =>
    lbl = "MANUFACTURER" → lst.all pred = true
  have hinv : ∀ p ∈ extract_entities_with_metadata equipT manufT canon mmeta ents,
      P p.1 p.2 := by
    unfold extract_entities_with_metadata
    generalize hacc : ([] : List (String × List EEnt)) = acc
    have hacc0 : ∀ p ∈ acc, P p.1 p.2 := by
      rw [← hacc]
      intro p hp
      simp at hp
    clear hacc
    induction ents generalizing acc with
    | nil => simpa using hacc0
    | cons ent ents ih =>
      rw [List.foldl_cons]
      apply ih
      unfold extractStep
      split
      · exact hacc0
      next hguard =>
        apply insertEntity_forall P acc ent.label _ hacc0 (fun lbl => by simp [P])
        intro lst hP _
        intro hlbl
        rw [List.all_append, Bool.and_eq_true]
        refine ⟨hP hlbl, ?_⟩
        simp only [List.all_cons, List.all_nil, Bool.and_true]
        have hstop : is_stopword_or_common
            (normalize_entity equipT manufT (clean_word ent.text) ent.label) = false := by
          rcases hb : is_stopword_or_common
              (normalize_entity equipT manufT (clean_word ent.text) ent.label) with _ | _
          · rfl
          · exfalso
            apply hguard
            rw [hlbl] at hb ⊢
            simp [hb]
        have hnotmodel : ¬((ent.label == "MODEL") = true) := by
          rw [hlbl]
          decide
        show pred (entityFor equipT manufT canon mmeta ent) = true
        unfold entityFor
        rw [if_neg hnotmodel]
        simp only [pred]
        simp [hstop]
  unfold entitiesFor
  cases hfind : (extract_entities_with_metadata equipT manufT canon mmeta ents).find?
      (fun p => p.1 == "MANUFACTURER") with
  | none => simp
  | some q =>
    have hqmem := List.mem_of_find?_eq_some hfind
    have hqkey : q.1 = "MANUFACTURER" := by
      have := List.find?_some hfind
      simpa using this
    have := hinv q hqmem hqkey
    simpa using this

theorem nodup_values_filter_none_le_one (lst : List EEnt)
    (h : (lst.map (fun e => e.value)).Nodup) :
    (lst.filter (fun e => e.value == none)).length ≤ 1 := by
  induction lst with
  | nil => simp
  | cons x xs ih =>
    rw [List.map_cons, List.nodup_cons] at h
    rw [List.filter_cons]
    split
    next hx =>
      have hxv : x.value = none := by simpa using hx
      have hnil : xs.filter (fun e => e.value == none) = [] := by
        rw [List.filter_eq_nil_iff]
        intro a ha
        simp only [beq_iff_eq]
        intro hav
        exact h.1 (by
          rw [hxv, ← hav]
          exact List.mem_map_of_mem (fun e => e.value) ha)
      simp [hnil]
    next hx =>
      exact ih h.2

/-- C10: for every label, the entities kept by
`extract_entities_with_metadata` have pairwise distinct `value`s (a later
span whose value equals an already-kept entity's value for the same label is
discarded); in particular at most one entity per label — hence at most one
unresolved MODEL entity (`value = none`) — survives. -/
theorem c10_distinct_values (equipT manufT : List (String × List String))
    (canon : List (String × String)) (mmeta : List (String × MMeta))
    (ents : List NerSpan) (label : String) :
    ((entitiesFor (extract_entities_with_metadata equipT manufT canon mmeta ents)
        label).map (fun e => e.value)).Nodup ∧
    ((entitiesFor (extract_entities_with_metadata equipT manufT canon mmeta ents)
        label).filter (fun e => e.value == none)).length ≤ 1 := by
  let P : String → List EEnt → Prop := fun _ lst => (lst.map (fun e => e.value)).Nodup
  have hinv : ∀ p ∈ extract_entities_with_metadata equipT manufT canon mmeta ents,
      P p.1 p.2 := by
    unfold extract_entities_with_metadata
    generalize hacc : ([] : List (String × List EEnt)) = acc
    have hacc0 : ∀ p ∈ acc, P p.1 p.2 := by
      rw [← hacc]
      intro p hp
      simp at hp
    clear hacc
    induction ents generalizing acc with
    | nil => simpa using hacc0
    | cons ent ents ih =>
      rw [List.foldl_cons]
      apply ih
      unfold extractStep
      split
      · exact hacc0
      · apply insertEntity_forall P acc ent.label _ hacc0 (fun lbl => by simp [P])
        intro lst hP hany
        show ((lst ++ [entityFor equipT manufT canon mmeta ent]).map
          (fun e => e.value)).Nodup
        rw [List.map_append]
        simp only [List.map_cons, List.map_nil]
        rw [List.nodup_append]
        refine ⟨hP, List.nodup_singleton _, ?_⟩
        intro v hv hvmem
        rcases List.mem_singleton.mp hvmem with rfl
        rcases List.mem_map.mp hv with ⟨x, hx, hxv⟩
        have hne := List.any_eq_false.mp hany x hx
        rw [hxv] at hne
        simp at hne
  have hmain : P label (entitiesFor
      (extract_entities_with_metadata equipT manufT canon mmeta ents) label) := by
    unfold entitiesFor
    cases hfind : (extract_entities_with_metadata equipT manufT canon mmeta ents).find?
        (fun p => p.1 == label) with
    | none => simp [P]
    | some q =>
      have hqmem := List.mem_of_find?_eq_some hfind
      simpa using hinv q hqmem
  exact ⟨hmain, nodup_values_filter_none_le_one _ hmain⟩

/-! ## Conflict resolution of `find_parameters`
(src/pipeline/exctractors/parameter_extractor.py, lines 348–396)

The exact and fuzzy phases produce a list of *accepted* matches; the final
pass sorts them by position and drops overlapping and near-duplicate ones.
We embed that pass over an arbitrary accepted list (strictly more general
than — and the part of `find_parameters` that decides — the retention
claims).  `final_results.remove(x)` removes the first element equal to `x`;
`seen_keys` is a dict keyed by parameter key. -/

/-- The overlap test of the source (with `pos`/`end_pos` those of the new
match `r` and `existing_start`/`existing_end` those of the retained one). -/
def overlapB (e r : PMatch) : Bool :=
  (decide (e.position ≤ r.position) && decide (r.position < e.end_position)) ||
  (decide (e.position < r.end_position) && decide (r.end_position ≤ e.end_position)) ||
  (decide (r.position ≤ e.position) && decide (r.end_position ≥ e.end_position))

/-- Plain interval overlap of the `[position, end_position)` ranges — the
notion the claim speaks about.  For non-empty spans it coincides with the
source's `overlapB` (see `overlapB_eq_ranges`). -/
def rangesOverlapB (a b : PMatch) : Bool :=
  decide (a.position < b.end_position) && decide (b.position < a.end_position)

/-- Lookup `seen_keys[k]`. -/
def seenLookup (seen : List (String × PMatch)) (k : String) : Option PMatch :=
  (seen.find? (fun p => p.1 == k)).map (·.2)

/-- Assignment `seen_keys[k] = v` (dicts keep one binding per key). -/
def seenInsert (seen : List (String × PMatch)) (k : String) (v : PMatch) :
    List (String × PMatch) :=
  if seen.any (fun p => p.1 == k) then
    seen.map fun p => if p.1 == k then (k, v) else p
  else seen ++ [(k, v)]

/-- Deletion `del seen_keys[k]`. -/
def seenErase (seen : List (String × PMatch)) (k : String) :
    List (String × PMatch) :=
  seen.filter fun p => !(p.1 == k)

/-- The same-key deduplication block of the loop (reached when the new match
`r` is not discarded by the overlap check). -/
def keyLogic (final : List PMatch) (seen : List (String × PMatch)) (r : PMatch) :
    List PMatch × List (String × PMatch) :=
  match seenLookup seen r.key with
  | some existing =>
    if natDist r.position existing.position > 50 then (final ++ [r], seen)
    else if r.confidence > existing.confidence then
      (final.erase existing ++ [r], seenInsert seen r.key r)
    else (final, seen)
  | none => (final ++ [r], seenInsert seen r.key r)

/-- One iteration of the retention loop: find the first retained match
overlapping `r` (the loop breaks at the first hit); discard `r`, or replace
the weaker overlapped match, then run the same-key logic. -/
def processOne (st : List PMatch × List (String × PMatch)) (r : PMatch) :
    List PMatch × List (String × PMatch) :=
  match st.1.find? (fun ex => overlapB ex r) with
  | some ex =>
    if r.confidence > ex.confidence then
      keyLogic (st.1.erase ex)
        (if seenLookup st.2 ex.key == some ex then seenErase st.2 ex.key else st.2) r
    else st
  | none => keyLogic st.1 st.2 r

/-- Stable insertion by `position` (Python's `list.sort` is stable). -/
def insertPM (x : PMatch) : List PMatch → List PMatch
  | [] => [x]
  | y :: ys => if y.position < x.position then y :: insertPM x ys else x :: y :: ys

/-- Stable sort of the accepted matches by `position`. -/
def sortByPos : List PMatch → List PMatch
  | [] => []
  | x :: xs => insertPM x (sortByPos xs)

/-- The conflict-resolution pass of `find_parameters` (lines 348–396): sort
by position, run the retention loop, sort the retained list again. -/
def find_parameters_dedup (results : List PMatch) : List PMatch :=
  sortByPos ((sortByPos results).foldl processOne ([], [])).1

/-- No two members of the list have overlapping `[position, end_position)`
ranges. -/
def pairwiseNoOverlapB : List PMatch → Bool
  | [] => true
  | x :: xs => xs.all (fun y => !rangesOverlapB x y) && pairwiseNoOverlapB xs

theorem overlapB_eq_ranges {e r : PMatch} (he : e.position < e.end_position)
    (hr : r.position < r.end_position) : overlapB e r = rangesOverlapB e r := by
  rw [Bool.eq_iff_iff]
  simp only [overlapB, rangesOverlapB, Bool.or_eq_true, Bool.and_eq_true,
    decide_eq_true_eq, ge_iff_le]
  omega

theorem rangesOverlapB_comm (a b : PMatch) :
    rangesOverlapB a b = rangesOverlapB b a := by
  simp [rangesOverlapB, Bool.and_comm]

/-- The retention relation the claim asserts: the two ranges do not
overlap. -/
def noOv (a b : PMatch) : Prop := rangesOverlapB a b = false

theorem noOv_symm : Symmetric noOv := by
  intro a b h
  unfold noOv at *
  rw [rangesOverlapB_comm]
  exact h

theorem pairwiseNoOverlapB_iff (l : List PMatch) :
    pairwiseNoOverlapB l = true ↔ List.Pairwise noOv l := by
  induction l with
  | nil => simp [pairwiseNoOverlapB]
  | cons x xs ih =>
    simp [pairwiseNoOverlapB, List.pairwise_cons, ih, noOv, List.all_eq_true]

theorem pairwise_self_of_mem_erase {R : PMatch → PMatch → Prop} :
    ∀ (l : List PMatch) (a : PMatch), List.Pairwise R l → a ∈ l.erase a → R a a := by
  intro l
  induction l with
  | nil =>
    intro a _ ha
    simp at ha
  | cons x xs ih =>
    intro a hpw ha
    by_cases hx : x = a
    · subst hx
      rw [List.erase_cons_head] at ha
      exact (List.pairwise_cons.mp hpw).1 _ ha
    · rw [List.erase_cons_tail (by simp [hx])] at ha
      rcases List.mem_cons.mp ha with h1 | h2
      · exact absurd h1.symm hx
      · exact ih a (List.pairwise_cons.mp hpw).2 h2

theorem keyLogic_preserves (r : PMatch) (final : List PMatch)
    (seen : List (String × PMatch))
    (hpw : List.Pairwise noOv final)
    (hnov : ∀ f ∈ final, noOv f r ∧ noOv r f) :
    List.Pairwise noOv (keyLogic final seen r).1 ∧
      ∀ f ∈ (keyLogic final seen r).1, f ∈ final ∨ f = r := by
  have happend : ∀ l : List PMatch, l.Sublist final →
      List.Pairwise noOv (l ++ [r]) := by
    intro l hsub
    rw [List.pairwise_append]
    refine ⟨hpw.sublist hsub, List.pairwise_singleton _ _, ?_⟩
    intro a ha b hb
    rw [List.mem_singleton.mp hb]
    exact (hnov a (hsub.subset ha)).1
  have hmem_append : ∀ (l : List PMatch), l.Sublist final →
      ∀ f ∈ l ++ [r], f ∈ final ∨ f = r := by
    intro l hsub f hf
    rcases List.mem_append.mp hf with h | h
    · exact Or.inl (hsub.subset h)
    · exact Or.inr (List.mem_singleton.mp h)
  cases hlk : seenLookup seen r.key with
  | none =>
    have hgoal : keyLogic final seen r = (final ++ [r], seenInsert seen r.key r) := by
      unfold keyLogic
      rw [hlk]
    rw [hgoal]
    exact ⟨happend final (List.Sublist.refl _),
      hmem_append final (List.Sublist.refl _)⟩
  | some existing =>
    have hgoal : keyLogic final seen r =
        (if natDist r.position existing.position > 50 then (final ++ [r], seen)
         else if r.confidence > existing.confidence then
           (final.erase existing ++ [r], seenInsert seen r.key r)
         else (final, seen)) := by
      unfold keyLogic
      rw [hlk]
    rw [hgoal]
    split
    · exact ⟨happend final (List.Sublist.refl _),
        hmem_append final (List.Sublist.refl _)⟩
    · split
      · exact ⟨happend (final.erase existing) (List.erase_sublist _ _),
          hmem_append (final.erase existing) (List.erase_sublist _ _)⟩
      · exact ⟨hpw, fun f hf => Or.inl hf⟩

theorem processOne_preserves (r : PMatch) (final : List PMatch)
    (seen : List (String × PMatch))
    (hpw : List.Pairwise noOv final)
    (hpos : ∀ f ∈ final, f.position ≤ r.position)
    (hspan : ∀ f ∈ final, f.position < f.end_position)
    (hr : r.position < r.end_position) :
    List.Pairwise noOv (processOne (final, seen) r).1 ∧
      ∀ f ∈ (processOne (final, seen) r).1, f ∈ final ∨ f = r := by
  cases hf : final.find? (fun ex => overlapB ex r) with
  | none =>
    have hgoal : processOne (final, seen) r = keyLogic final seen r := by
      unfold processOne
      rw [hf]
    rw [hgoal]
    have hnov : ∀ f ∈ final, noOv f r ∧ noOv r f := by
      intro f hfm
      have hnot := List.find?_eq_none.mp hf f hfm
      have hov : overlapB f r = false := by
        cases hb : overlapB f r
        · rfl
        · exact absurd hb hnot
      have hrg : rangesOverlapB f r = false := by
        rw [← overlapB_eq_ranges (hspan f hfm) hr]
        exact hov
      exact ⟨hrg, by rw [noOv, rangesOverlapB_comm]; exact hrg⟩
    exact keyLogic_preserves r final seen hpw hnov
  | some ex =>
    have hexm := List.mem_of_find?_eq_some hf
    have hexov : overlapB ex r = true := by
      have := List.find?_some hf
      simpa using this
    have hexrg : rangesOverlapB ex r = true := by
      rw [← overlapB_eq_ranges (hspan ex hexm) hr]
      exact hexov
    have hgoal : processOne (final, seen) r =
        (if r.confidence > ex.confidence then
          keyLogic (final.erase ex)
            (if seenLookup seen ex.key == some ex then seenErase seen ex.key else seen) r
         else (final, seen)) := by
      unfold processOne
      rw [hf]
    rw [hgoal]
    split
    · have hpw' : List.Pairwise noOv (final.erase ex) :=
        hpw.sublist (List.erase_sublist ex final)
      have hnov' : ∀ f ∈ final.erase ex, noOv f r ∧ noOv r f := by
        intro f hfm
        have hfin : f ∈ final := List.mem_of_mem_erase hfm
        by_cases hfr : rangesOverlapB f r = true
        · exfalso
          by_cases hfe : f = ex
          · subst hfe
            have hRaa : noOv f f := pairwise_self_of_mem_erase _ _ hpw hfm
            have hself : rangesOverlapB f f = true := by
              simp only [rangesOverlapB, Bool.and_eq_true, decide_eq_true_eq]
              have := hspan f hfin
              omega
            rw [noOv] at hRaa
            rw [hRaa] at hself
            exact Bool.false_ne_true hself
          · have h1 : noOv f ex := hpw.forall noOv_symm hfin hexm hfe
            have hfp := hpos f hfin
            have hep := hpos ex hexm
            simp only [rangesOverlapB, Bool.and_eq_true, decide_eq_true_eq] at hfr hexrg
            have hcontra : rangesOverlapB f ex = true := by
              simp only [rangesOverlapB, Bool.and_eq_true, decide_eq_true_eq]
              omega
            rw [noOv] at h1
            rw [h1] at hcontra
            exact Bool.false_ne_true hcontra
        · have hfr' : rangesOverlapB f r = false := by
            cases hb : rangesOverlapB f r
            · rfl
            · exact absurd hb hfr
          exact ⟨hfr', by rw [noOv, rangesOverlapB_comm]; exact hfr'⟩
      have hk := keyLogic_preserves r (final.erase ex)
        (if seenLookup seen ex.key == some ex then seenErase seen ex.key else seen)
        hpw' hnov'
      refine ⟨hk.1, ?_⟩
      intro f hfm
      rcases hk.2 f hfm with h | h
      · exact Or.inl (List.mem_of_mem_erase h)
      · exact Or.inr h
    · exact ⟨hpw, fun f hfm => Or.inl hfm⟩

theorem fold_preserves :
    ∀ (xs : List PMatch) (final : List PMatch) (seen : List (String × PMatch)),
      List.Pairwise (fun a b => a.position ≤ b.position) xs →
      (∀ x ∈ xs, x.position < x.end_position) →
      List.Pairwise noOv final →
      (∀ f ∈ final, ∀ x ∈ xs, f.position ≤ x.position) →
      (∀ f ∈ final, f.position < f.end_position) →
      List.Pairwise noOv (xs.foldl processOne (final, seen)).1 := by
  intro xs
  induction xs with
  | nil =>
    intro final seen _ _ hpw _ _
    simpa using hpw
  | cons r xs ih =>
    intro final seen hsort hxspan hpw hpos hfspan
    rw [List.foldl_cons]
    have hstep := processOne_preserves r final seen hpw
      (fun f hfm => hpos f hfm r (List.mem_cons_self r xs)) hfspan
      (hxspan r (List.mem_cons_self r xs))
    rcases hst : processOne (final, seen) r with ⟨final', seen'⟩
    rw [hst] at hstep
    apply ih final' seen'
    · exact (List.pairwise_cons.mp hsort).2
    · intro x hx
      exact hxspan x (List.mem_cons_of_mem r hx)
    · exact hstep.1
    · intro f hfm x hx
      rcases hstep.2 f hfm with h | h
      · exact hpos f h x (List.mem_cons_of_mem r hx)
      · subst h
        exact (List.pairwise_cons.mp hsort).1 x hx
    · intro f hfm
      rcases hstep.2 f hfm with h | h
      · exact hfspan f h
      · subst h
        exact hxspan _ (List.mem_cons_self _ xs)

theorem insertPM_perm (x : PMatch) (l : List PMatch) :
    List.Perm (insertPM x l) (x :: l) := by
  induction l with
  | nil => exact List.Perm.refl _
  | cons y ys ih =>
    unfold insertPM
    split
    · exact (ih.cons y).trans (List.Perm.swap x y ys)
    · exact List.Perm.refl _

theorem sortByPos_perm (l : List PMatch) : List.Perm (sortByPos l) l := by
  induction l with
  | nil => exact List.Perm.refl _
  | cons x xs ih => exact (insertPM_perm x (sortByPos xs)).trans (ih.cons x)

theorem insertPM_sorted (x : PMatch) (l : List PMatch)
    (h : List.Pairwise (fun a b => a.position ≤ b.position) l) :
    List.Pairwise (fun a b => a.position ≤ b.position) (insertPM x l) := by
  induction l with
  | nil => simp [insertPM]
  | cons y ys ih =>
    obtain ⟨hy, hys⟩ := List.pairwise_cons.mp h
    unfold insertPM
    split
    next hlt =>
      rw [List.pairwise_cons]
      refine ⟨?_, ih hys⟩
      intro z hz
      rcases List.mem_cons.mp ((insertPM_perm x ys).mem_iff.mp hz) with h1 | h2
      · subst h1; omega
      · exact hy z h2
    next hge =>
      rw [List.pairwise_cons]
      refine ⟨?_, h⟩
      intro z hz
      rcases List.mem_cons.mp hz with h1 | h2
      · subst h1; omega
      · have := hy z h2
        omega

theorem sortByPos_sorted (l : List PMatch) :
    List.Pairwise (fun a b => a.position ≤ b.position) (sortByPos l) := by
  induction l with
  | nil => simp [sortByPos]
  | cons x xs ih => exact insertPM_sorted x (sortByPos xs) ih

/-! ## Pipeline routing (src/pipeline/ipg_pipeline.py) -/

/-- Python `a in b` on strings: substring containment. -/
def isSubstring (a b : List Char) : Bool :=
  (List.range (b.length + 1)).any fun i => occursAt a b i

/-- A `param_bindings` entry parsed from the LLM reply
(`{"model": …, "parameters": […]}`). -/
structure Binding where
  model : String
  parameters : List String
deriving DecidableEq, Repr

/-- A sub-query built by `IPGPipeline.build_final_routing` (it has no
confidence/match-type fields, unlike the binder's sub-queries). -/
structure SubQuery2 where
  manufacturer : String
  model : String
  equipment_type : Option String
  parameter : String
  original_part : String
deriving DecidableEq, Repr

/-- The routing decisions `IPGPipeline.build_final_routing` can return. -/
inductive FinalRouting where
  | noEnts (message : String)
  | single (sub_query : SubQuery2)
  | multi (sub_queries : List SubQuery2)
deriving DecidableEq, Repr

/-- The `recommended_strategy` string of a final routing decision. -/
def FinalRouting.strategy : FinalRouting → String
  | noEnts _ => "noEntities"
  | single _ => "single_query"
  | multi _ => "multi_query"

/-- Embeds `IPGPipeline.find_closest_manufacturer` (src/pipeline/ipg_pipeline.py,
lines 32–57).  The `extracted_entities` dict is passed as its manufacturer
and model lists; every modelled entity carries a `position`, so the
`"position" not in target_model` fallback of the source cannot fire. -/
def find_closest_manufacturer (model_value : String)
    (manufacturers : List SimpleEnt) (models : List NerModel) : String :=
  match manufacturers with
  | [] => ""
  | m0 :: ms =>
    match models.find? (fun m =>
        m.value == some model_value ||
        isSubstring (pyLower m.original_value.data) (pyLower model_value.data)) with
    | none => m0.value
    | some tm => (argminBy (fun m => natDist m.position tm.position) m0 ms).value

/-- Embeds `IPGPipeline.build_final_routing` (src/pipeline/ipg_pipeline.py, lines
59–104). -/
def build_final_routing (param_bindings : List Binding)
    (manufacturers : List SimpleEnt) (models : List NerModel)
    (eq_types : List SimpleEnt) (text : String) : FinalRouting :=
  match param_bindings with
  | [] => .noEnts "No valid parameter bindings found"
  | _ :: _ =>
    let eq_type_value := match eq_types with | [] => none | e :: _ => some e.value
    let sub_queries := param_bindings.foldr
      (fun b acc =>
        (b.parameters.map fun param =>
          { manufacturer := find_closest_manufacturer b.model manufacturers models,
            model := b.model, equipment_type := eq_type_value,
            parameter := param,
            original_part := String.mk (text.data.take 100) : SubQuery2 }) ++ acc)
      []
    match sub_queries with
    | [q] => .single q
    | qs => .multi qs

/-- Modelled from the spec: `detect_question_type`, which
src/pipeline/ipg_pipeline.py imports from the processors module, is missing
from the source tree (only its caller exists).  Per §4.5 of the spec the
keyword checks run in priority order — parallel first, then
compatibility. -/
def detect_question_type (text : String) : String :=
  if detect_parallel_query text then "parallel"
  else if detect_compatibility_query text then "compat"
  else "other"

/-- The routing computed by `IPGPipeline.process` (src/pipeline/
ipg_pipeline.py, lines 159–207) for a query with `question_type = "compat"`:
the LLM is skipped, `llm_result` is the fixed dict with
`param_bindings = []`, and the final routing is `build_final_routing` of
that empty binding list. -/
def process_compat_routing (manufacturers : List SimpleEnt)
    (models : List NerModel) (eq_types : List SimpleEnt) (text : String) :
    FinalRouting :=
  build_final_routing [] manufacturers models eq_types text

end AutoSpacy

namespace AutoSpacy

/-- A sample parameter match used by concrete instances below. -/
def pmWeight : PMatch :=
  { key := "weight_kg", synonym_matched := "weight", confidence := 19/20,
    position := 0, end_position := 6, extracted_value := "weight",
    match_type := "exact" }

/-- C1: with no parallel and no compatibility keyword, `determine_status`
returns `"simple"` exactly when the number of MODEL entities with non-null
canonical value and the number of retained parameter matches are both
between 1 and 2, and `"complex"` otherwise; null-valued (unresolved) models
are excluded from the count. -/
theorem c1_determine_status_simple_iff (models : List ModelEnt)
    (parameters : List PMatch) (t : String)
    (hp : detect_parallel_query t = false)
    (hc : detect_compatibility_query t = false) :
    determine_status models parameters t =
      (if 1 ≤ (models.filter fun m => m.value.isSome).length ∧
          (models.filter fun m => m.value.isSome).length ≤ 2 ∧
          1 ≤ parameters.length ∧ parameters.length ≤ 2
       then "simple" else "complex") := by
  simp only [determine_status, hp, hc, Bool.false_eq_true, if_false]
  split_ifs with h1 h2 h3 <;> first | rfl | (exfalso; omega)

/-- Witness for C1 at a concrete input: one resolved model, one parameter
match, no keyword patterns. -/
theorem c1_determine_status_simple_iff_witness :
    detect_parallel_query "weight of us5000" = false ∧
    detect_compatibility_query "weight of us5000" = false ∧
    determine_status [⟨some "us5000"⟩] [pmWeight] "weight of us5000" = "simple" := by
  refine ⟨by decide, by decide, ?_⟩
  rw [c1_determine_status_simple_iff _ _ _ (by decide) (by decide)]
  decide

/-- C3 counterexample: `"parallel compatible"` matches a compatibility
keyword pattern, yet `determine_status` returns `"parallel"` (the parallel
patterns are checked first), not `"compat"`. -/
theorem c3_compat_counterexample :
    detect_compatibility_query "parallel compatible" = true ∧
    determine_status [] [] "parallel compatible" ≠ "compat" := by
  constructor
  · decide
  · show determine_status [] [] "parallel compatible" ≠ "compat"
    have : detect_parallel_query "parallel compatible" = true := by decide
    simp [determine_status, this]

/-- C3 (amended): any text matching a compatibility keyword pattern and no
parallel keyword pattern is classified `"compat"`, irrespective of the
extracted entities and parameter matches. -/
theorem c3_compat_status (models : List ModelEnt) (parameters : List PMatch)
    (t : String)
    (hp : detect_parallel_query t = false)
    (hc : detect_compatibility_query t = true) :
    determine_status models parameters t = "compat" := by
  simp [determine_status, hp, hc]

/-- Witness for C3 (amended) at a concrete compatibility query. -/
theorem c3_compat_status_witness :
    determine_status [⟨some "us5000"⟩] [] "is US5000 compatible with MultiPlus" = "compat" :=
  c3_compat_status _ _ _ (by decide) (by decide)

/-! ### C2: routing for one resolved model and one parameter match -/

theorem closestModelFor_single (vm : CModel) (g : Segment) (p : PMatch) :
    closestModelFor vm [] g p = vm := by
  unfold closestModelFor segModels
  by_cases hp : (decide (g.start ≤ vm.base.position) &&
      decide (vm.base.position < g.stop)) = true
  · simp [List.filter_cons, hp, argminBy]
  · simp [List.filter_cons, hp, argminBy]

theorem subqueries_fold (vm : CModel) (M E : List SimpleEnt) (p : PMatch) :
    ∀ segs : List Segment,
      segs.foldr
        (fun g acc => (segParams [p] g).map (mkSubQuery vm [] M E g) ++ acc) [] =
      (segs.filter (fun g => overlapsSegment p g)).map
        (fun g => mkSubQuery vm [] M E g p) := by
  intro segs
  induction segs with
  | nil => rfl
  | cons g gs ih =>
    simp only [List.foldr_cons, List.filter_cons, ih]
    by_cases hg : overlapsSegment p g = true
    · simp [segParams, List.filter_cons, hg]
    · simp [segParams, List.filter_cons, hg]

/-- C2 (amended): with exactly one valid (resolved) model and exactly one
retained parameter match whose span overlaps exactly one segment of the
text, `build_routing` returns `single_query` and the sub-query's model is
the model's canonical value.  (The extra overlap condition is forced by the
counterexample below: a match that straddles a conjunction separator is
assigned to both neighbouring segments and yields `multi_query`.) -/
theorem c2_single_query_amended (canon : List (String × String))
    (manufacturers : List SimpleEnt) (models : List NerModel)
    (eq_types : List SimpleEnt) (p : PMatch) (text : String)
    (vm : CModel) (c : String)
    (hvalid : validModelsOf canon models = [vm])
    (hc : vm.canonical = some c)
    (hover : ((split_into_segments text).filter
        (fun g => overlapsSegment p g)).length = 1) :
    ∃ q, build_routing canon manufacturers models eq_types [p] text =
        .single q ∧ q.model = c := by
  obtain ⟨g0, hg0⟩ := List.length_eq_one.mp hover
  have hmap : map_parameters_to_models canon [p] models manufacturers eq_types text
      = [mkSubQuery vm [] manufacturers eq_types g0 p] := by
    unfold map_parameters_to_models
    rw [hvalid]
    show (split_into_segments text).foldr
        (fun g acc =>
          (segParams [p] g).map (mkSubQuery vm [] manufacturers eq_types g) ++ acc)
        [] = _
    rw [subqueries_fold vm manufacturers eq_types p (split_into_segments text), hg0]
    simp
  unfold build_routing
  rw [if_neg (by simp)]
  rw [hmap]
  refine ⟨_, rfl, ?_⟩
  show (closestModelFor vm [] g0 p).canonical.getD "" = c
  rw [closestModelFor_single, hc]
  rfl

def c2wModel : NerModel := { value := some "us5000", position := 5, original_value := "US5000" }

/-- Witness for C2 (amended): `"вага US5000"` — one resolved model, one
parameter match inside the single segment, routed as one sub-query for
canonical model `us5000`. -/
theorem c2_single_query_amended_witness :
    ∃ q, build_routing [("us5000", "us5000")] [] [c2wModel] [] [pmWeight]
        "вага US5000" = .single q ∧ q.model = "us5000" :=
  c2_single_query_amended [("us5000", "us5000")] [] [c2wModel] [] pmWeight
    "вага US5000" ⟨c2wModel, some "us5000"⟩ "us5000"
    (by decide) (by decide) (by decide)

def c2cCanon : List (String × String) := [("abc", "abc")]

def c2cModel : NerModel := { value := some "abc", position := 34, original_value := "abc" }

/-- The glossary synonym `"контроль напруги і частоти мережі"` (key
`grid_monitoring` in `DEFAULT_PARAM_GLOSSARY`, src/config.py) as an exact
match at the start of the text: its span contains the conjunction `" і "`. -/
def c2cParam : PMatch :=
  { key := "grid_monitoring", synonym_matched := "контроль напруги і частоти мережі",
    confidence := 19/20, position := 0, end_position := 33,
    extracted_value := "контроль напруги і частоти мережі", match_type := "exact" }

/-! ### C4/C5: routing for compat queries and for empty bindings -/

/-- C4 counterexample: a compatibility query (with entities present) gets
final routing strategy `"noEntities"` with message
`"No valid parameter bindings found"` — not `"compatibility_check"`, and
with no payload of the manufacturers/models/equipment types seen. -/
theorem c4_compat_routing_counterexample :
    detect_question_type "is US5000 compatible with MultiPlus" = "compat" ∧
    process_compat_routing [⟨"pylontech", 3⟩]
        [{ value := some "us5000", position := 6, original_value := "US5000" }] []
        "is US5000 compatible with MultiPlus" =
      .noEnts "No valid parameter bindings found" ∧
    (process_compat_routing [⟨"pylontech", 3⟩]
        [{ value := some "us5000", position := 6, original_value := "US5000" }] []
        "is US5000 compatible with MultiPlus").strategy ≠ "compatibility_check" := by
  exact ⟨by decide, by decide, by decide⟩

/-- C4 (amended): for every query processed with `question_type = "compat"`,
the pipeline skips the LLM and, because the resulting `param_bindings` list
is empty, the final routing is always `noEntities` with message
`"No valid parameter bindings found"` — in particular no SQL sub-queries
are generated (that part of the claim holds); no `compatibility_check`
strategy exists in the code. -/
theorem c4_compat_routing (manufacturers : List SimpleEnt)
    (models : List NerModel) (eq_types : List SimpleEnt) (text : String) :
    process_compat_routing manufacturers models eq_types text =
      .noEnts "No valid parameter bindings found" := rfl

/-- C5 (amended): when the binder yields zero sub-queries although entities
are present, `build_routing` returns strategy `"noEntities"` (not
`"complex_query"`) with message `"No valid parameter-model bindings"`; and
the pipeline's `build_final_routing` on an empty binding list likewise
returns `"noEntities"` with message `"No valid parameter bindings found"`. -/
theorem c5_empty_bindings_noEntities :
    (∀ (canon : List (String × String)) (manufacturers : List SimpleEnt)
        (models : List NerModel) (eq_types : List SimpleEnt)
        (parameters : List PMatch) (text : String),
      ¬(manufacturers = [] ∧ models = [] ∧ parameters = []) →
      map_parameters_to_models canon parameters models manufacturers eq_types text = [] →
      build_routing canon manufacturers models eq_types parameters text =
        .noEnts "No valid parameter-model bindings") ∧
    (∀ (manufacturers : List SimpleEnt) (models : List NerModel)
        (eq_types : List SimpleEnt) (text : String),
      build_final_routing [] manufacturers models eq_types text =
        .noEnts "No valid parameter bindings found") := by
  constructor
  · intro canon manufacturers models eq_types parameters text hne hsub
    unfold build_routing
    rw [if_neg hne, hsub]
  · intro manufacturers models eq_types text
    rfl

def c5Canon : List (String × String) := [("m1", "m1c")]

def c5Model : NerModel :=
  { value := normalize_model c5Canon "m1", position := 0, original_value := "m1" }

/-- A retained parameter match sitting inside the separator region of
`"a   ,   b"`, more than `BORDER_TOLERANCE` characters from both segments. -/
def c5Param : PMatch :=
  { key := "weight_kg", synonym_matched := ",", confidence := 19/20,
    position := 4, end_position := 5, extracted_value := ",",
    match_type := "exact" }

/-- C5 counterexample: a query of status `"simple"` (one valid model, one
retained parameter match, no keywords) for which the binder produces zero
sub-queries; the router returns strategy `"noEntities"` — the code has no
`"complex_query"` strategy at all. -/
theorem c5_empty_bindings_counterexample :
    determine_status [⟨normalize_model c5Canon "m1"⟩] [c5Param] "a   ,   b" = "simple" ∧
    map_parameters_to_models c5Canon [c5Param] [c5Model] [] [] "a   ,   b" = [] ∧
    build_routing c5Canon [] [c5Model] [] [c5Param] "a   ,   b" =
      .noEnts "No valid parameter-model bindings" ∧
    (build_routing c5Canon [] [c5Model] [] [c5Param] "a   ,   b").strategy ≠
      "complex_query" := by
  exact ⟨by decide, by decide, by decide, by decide⟩

/-- Witness for C5 (amended), discharging its hypotheses at the
counterexample input above. -/
theorem c5_empty_bindings_noEntities_witness :
    build_routing c5Canon [] [c5Model] [] [c5Param] "a   ,   b" =
      .noEnts "No valid parameter-model bindings" :=
  c5_empty_bindings_noEntities.1 c5Canon [] [c5Model] [] [c5Param] "a   ,   b"
    (by simp) (by decide)

/-! ### C8: strictness of `normalize_model` -/

/-- C8: `normalize_model` returns exactly the canonical-registry binding of
the whitespace-stripped, lowercased input — the canonical name when that key
is present, `None` otherwise (including for empty input), never the raw
input as a fallback; being a total function, it never raises.  The
hypothesis rules out the degenerate registry that binds the empty key
(which the `original -> canonical` file format never produces). -/
theorem c8_normalize_model_strict (canon : List (String × String))
    (model_name : String) (hk : dictGet canon "" = none) :
    normalize_model canon model_name =
      dictGet canon (pyLowerStr (pyStripStr model_name)) := by
  unfold normalize_model
  by_cases hm : model_name = ""
  · subst hm
    rw [if_pos (by decide)]
    have hkey : pyLowerStr (pyStripStr "") = "" := by decide
    rw [hkey, hk]
  · rw [if_neg (by simpa using hm)]

/-- Witness for C8 at a concrete registry and inputs: `" US5000 "` resolves
through stripping and lowercasing; `"unknown"` and `""` yield `None`. -/
theorem c8_normalize_model_strict_witness :
    dictGet [("us5000", "us5000")] "" = none ∧
    normalize_model [("us5000", "us5000")] " US5000 " = some "us5000" ∧
    normalize_model [("us5000", "us5000")] "unknown" = none ∧
    normalize_model [("us5000", "us5000")] "" = none := by
  refine ⟨by decide, ?_, ?_, ?_⟩
  · rw [c8_normalize_model_strict _ _ (by decide)]
    decide
  · rw [c8_normalize_model_strict _ _ (by decide)]
    decide
  · rw [c8_normalize_model_strict _ _ (by decide)]
    decide

/-! ### C6: retention invariants of `find_parameters` -/

/-- An exact-match occurrence of the same synonym/key at a given position
(the source gives every exact match confidence 0.95). -/
def c6Match (pos : Nat) : PMatch :=
  { key := "weight_kg", synonym_matched := "вага", confidence := 19/20,
    position := pos, end_position := pos + 4, extracted_value := "вага",
    match_type := "exact" }

/-- C6 counterexample: three accepted exact matches of the same key at
positions 0, 60 and 100 are all retained, although the matches at 60 and
100 are only 40 characters apart — `seen_keys` compares every later match
against the key's *first* retained match only, so two retained matches of
the same key need not be more than 50 characters apart. -/
theorem c6_retention_counterexample :
    (find_parameters_dedup [c6Match 0, c6Match 60, c6Match 100]).map
        (fun r => (r.key, r.position)) =
      [("weight_kg", 0), ("weight_kg", 60), ("weight_kg", 100)] ∧
    natDist 60 100 ≤ 50 := by
  exact ⟨by decide, by decide⟩

/-- C6 (amended): in the list retained by the conflict-resolution pass of
`find_parameters`, no two matches have overlapping
`[position, end_position)` ranges (for accepted matches with non-empty
spans, as the exact and fuzzy phases produce).  The same-key rule, however,
only guarantees distance > 50 to the key's first retained match, so two
retained matches of the same key may be within 50 characters of each other
(see the counterexample). -/
theorem c6_no_overlap_retained (results : List PMatch)
    (h : results.all (fun r => decide (r.position < r.end_position)) = true) :
    pairwiseNoOverlapB (find_parameters_dedup results) = true := by
  have hspan : ∀ r ∈ results, r.position < r.end_position := by
    intro r hr
    have := List.all_eq_true.mp h r hr
    simpa using this
  have hspan' : ∀ r ∈ sortByPos results, r.position < r.end_position := by
    intro r hr
    exact hspan r ((sortByPos_perm results).mem_iff.mp hr)
  have hfold := fold_preserves (sortByPos results) [] []
    (sortByPos_sorted results) hspan' List.Pairwise.nil
    (by intro f hf; simp at hf) (by intro f hf; simp at hf)
  rw [pairwiseNoOverlapB_iff]
  unfold find_parameters_dedup
  exact ((sortByPos_perm _).pairwise_iff (fun h => noOv_symm h)).mpr hfold

/-- Witness for C6 (amended) at the concrete accepted list of the
counterexample. -/
theorem c6_no_overlap_retained_witness :
    ([c6Match 0, c6Match 60, c6Match 100].all
        (fun r => decide (r.position < r.end_position)) = true) ∧
    pairwiseNoOverlapB
        (find_parameters_dedup [c6Match 0, c6Match 60, c6Match 100]) = true :=
  ⟨by decide, c6_no_overlap_retained [c6Match 0, c6Match 60, c6Match 100] (by decide)⟩

/-- C2 counterexample: one valid model and one retained parameter match,
yet `build_routing` returns `multi_query`, not `single_query`: the match
`"контроль напруги і частоти мережі"` straddles the `" і "` separator, so
the segmenter splits inside it and the binder assigns it to both segments,
emitting two sub-queries. -/
theorem c2_single_query_counterexample :
    validModelsOf c2cCanon [c2cModel] = [⟨c2cModel, some "abc"⟩] ∧
    (build_routing c2cCanon [] [c2cModel] [] [c2cParam]
        "контроль напруги і частоти мережі abc").strategy = "multi_query" := by
  exact ⟨by decide, by decide⟩

end AutoSpacy
